import Mathlib

/-
Shallow embedding of the cashu-pol repository (AbdelStark/cashu-pol).

Source files embedded:
  src/types.rs   : MintProof, BurnProof, EpochState, EpochReport, PolReport, PolError
  src/storage.rs : Storage over a redb database (an epochs table keyed by u64 and a
                   single-entry current_epoch table)
  src/service.rs : PolService with initialize, record_mint_proof, record_burn_proof,
                   rotate_epoch, generate_report, verify_mint_proof, verify_burn_proof

Modelling conventions:
  - u64 values (satoshi amounts, epoch ids) are Nat; u64 arithmetic that can overflow
    is reduced modulo 2^64, matching release-profile Rust semantics of the plain +
    operator and of Iterator::sum on u64.  Nat subtraction is truncated at zero, which
    coincides with u64::saturating_sub on values below 2^64.
  - chrono DateTime values are Int nanoseconds since the epoch; the chrono API keeps
    the magnitude well below 2^64.
  - cdk Proof values are opaque equality-comparable identities, modelled as String.
  - bincode serialization (bincode 1.x: fixed-width little-endian integers, u64 length
    prefixes; chrono DateTime serialized as an ISO-8601 string determining the instant
    exactly, modelled as a sign byte plus eight magnitude bytes) is modelled
    structurally: u64 fields as eight little-endian bytes, String as length plus
    character codes (one code point per byte slot), HashSet as length plus elements.
  - HashSet is modelled as a duplicate-free list in insertion order; insert of an
    element already present leaves the list unchanged, as with HashSet::insert.
  - The redb tables are B-trees: insertion keeps entries ordered by key and iteration
    enumerates entries in ascending key order.  Storage.epochs is the key-sorted
    association list from u64 keys to encoded epoch records.
  - Utc::now() is an external input: every operation reading the clock takes the
    current timestamp as an explicit argument.
  - The tokio RwLock is not modelled; each public operation is one atomic step on the
    service state, matching the serialization the lock enforces on the pointer.
-/

/-- 2^64, the modulus of u64 arithmetic. -/
def U64MOD : Nat := 18446744073709551616

/-- src/types.rs: MintProof with an opaque proof identity, a satoshi amount and a
creation timestamp. -/
structure MintProof where
  proof : String
  amount : Nat
  timestamp : Int
deriving DecidableEq

/-- src/types.rs: BurnProof with a redemption secret, a satoshi amount and a creation
timestamp. -/
structure BurnProof where
  secret : String
  amount : Nat
  timestamp : Int
deriving DecidableEq

/-- src/types.rs: EpochState; the two HashSet fields are modelled as duplicate-free
lists in insertion order. -/
structure EpochState where
  epoch_id : Nat
  start_time : Int
  mint_proofs : List MintProof
  burn_proofs : List BurnProof
deriving DecidableEq

/-- src/types.rs: EpochReport. -/
structure EpochReport where
  epoch_id : Nat
  start_time : Int
  end_time : Option Int
  mint_proofs : List MintProof
  burn_proofs : List BurnProof
  outstanding_balance : Nat
deriving DecidableEq

/-- src/types.rs: PolReport. -/
structure PolReport where
  epoch_reports : List EpochReport
  total_outstanding_balance : Nat
  timestamp : Int
deriving DecidableEq

/-- src/types.rs: PolError, with every variant of the Rust enum. -/
inductive PolError where
  | InvalidEpoch (msg : String)
  | ProofVerificationFailed (msg : String)
  | ReportGenerationFailed (msg : String)
  | DatabaseError (msg : String)
  | DatabaseTransactionError (msg : String)
  | DatabaseSerializationError (msg : String)
  | DatabaseDeserializationError (msg : String)
  | DatabaseInitializationError (msg : String)
  | EpochNotFound (id : Nat)
  | InvalidProof (msg : String)
  | InvalidAmount (msg : String)
deriving DecidableEq

/-- HashSet::insert: a no-op when the element is already a member, otherwise the
element is added (modelled at the end of the list). -/
def insertEvent [DecidableEq α] (s : List α) (x : α) : List α :=
  if x ∈ s then s else s ++ [x]

/- ### The bincode encoding (bincode 1.x fixed-width little-endian layout) -/

/-- A u64 as eight little-endian bytes. -/
def encU64 (n : Nat) : List Nat :=
  [n % 256, n / 256 % 256, n / 65536 % 256, n / 16777216 % 256,
   n / 4294967296 % 256, n / 1099511627776 % 256,
   n / 281474976710656 % 256, n / 72057594037927936 % 256]

/-- Read back a u64 from eight little-endian bytes. -/
def dU64 : List Nat → Option (Nat × List Nat)
  | b0 :: b1 :: b2 :: b3 :: b4 :: b5 :: b6 :: b7 :: rest =>
      some (b0 + 256 * b1 + 65536 * b2 + 16777216 * b3 + 4294967296 * b4 +
        1099511627776 * b5 + 281474976710656 * b6 + 72057594037927936 * b7, rest)
  | _ => none

/-- A timestamp (the ISO-8601 string chrono emits, which determines the instant
exactly) modelled as a sign byte followed by the magnitude. -/
def encI64 (t : Int) : List Nat :=
  (if t < 0 then 1 else 0) :: encU64 t.natAbs

/-- Read back a timestamp. -/
def dI64 : List Nat → Option (Int × List Nat)
  | [] => none
  | sgn :: rest =>
      match dU64 rest with
      | some (n, rest2) => some (if sgn = 1 then -(n : Int) else (n : Int), rest2)
      | none => none

/-- String contents as character codes. -/
def encChars (cs : List Char) : List Nat := cs.map Char.toNat

/-- Read back a counted run of characters. -/
def dChars : Nat → List Nat → Option (List Char × List Nat)
  | 0, bs => some ([], bs)
  | _ + 1, [] => none
  | k + 1, b :: bs =>
      match dChars k bs with
      | some (cs, rest) => some (Char.ofNat b :: cs, rest)
      | none => none

/-- A String as a u64 length prefix plus its character codes. -/
def encString (s : String) : List Nat := encU64 s.data.length ++ encChars s.data

/-- Read back a String. -/
def dString (bs : List Nat) : Option (String × List Nat) :=
  match dU64 bs with
  | some (n, rest) =>
      match dChars n rest with
      | some (cs, rest2) => some (String.mk cs, rest2)
      | none => none
  | none => none

/-- Read back a counted run of elements with the given element decoder. -/
def dMany (dec : List Nat → Option (α × List Nat)) :
    Nat → List Nat → Option (List α × List Nat)
  | 0, bs => some ([], bs)
  | k + 1, bs =>
      match dec bs with
      | some (a, rest) =>
          match dMany dec k rest with
          | some (xs, rest2) => some (a :: xs, rest2)
          | none => none
      | none => none

/-- A sequence (a serialized HashSet) as a u64 length prefix plus its elements. -/
def encList (enc : α → List Nat) (l : List α) : List Nat :=
  encU64 l.length ++ (l.map enc).flatten

/-- Read back a sequence. -/
def dList (dec : List Nat → Option (α × List Nat)) (bs : List Nat) :
    Option (List α × List Nat) :=
  match dU64 bs with
  | some (n, rest) => dMany dec n rest
  | none => none

/-- A MintProof, fields in declaration order. -/
def encMint (p : MintProof) : List Nat :=
  encString p.proof ++ encU64 p.amount ++ encI64 p.timestamp

/-- Read back a MintProof. -/
def decMint (bs : List Nat) : Option (MintProof × List Nat) :=
  match dString bs with
  | some (pr, b1) =>
      match dU64 b1 with
      | some (a, b2) =>
          match dI64 b2 with
          | some (t, b3) => some (⟨pr, a, t⟩, b3)
          | none => none
      | none => none
  | none => none

/-- A BurnProof, fields in declaration order. -/
def encBurn (b : BurnProof) : List Nat :=
  encString b.secret ++ encU64 b.amount ++ encI64 b.timestamp

/-- Read back a BurnProof. -/
def decBurn (bs : List Nat) : Option (BurnProof × List Nat) :=
  match dString bs with
  | some (sec, b1) =>
      match dU64 b1 with
      | some (a, b2) =>
          match dI64 b2 with
          | some (t, b3) => some (⟨sec, a, t⟩, b3)
          | none => none
      | none => none
  | none => none

/-- An EpochState, fields in declaration order. -/
def encEpoch (e : EpochState) : List Nat :=
  encU64 e.epoch_id ++ encI64 e.start_time ++
    encList encMint e.mint_proofs ++ encList encBurn e.burn_proofs

/-- Read back an EpochState. -/
def decEpoch (bs : List Nat) : Option (EpochState × List Nat) :=
  match dU64 bs with
  | some (id, b1) =>
      match dI64 b1 with
      | some (st, b2) =>
          match dList decMint b2 with
          | some (ms, b3) =>
              match dList decBurn b3 with
              | some (burns, b4) => some (⟨id, st, ms, burns⟩, b4)
              | none => none
          | none => none
      | none => none
  | none => none

/-- bincode::deserialize of an epoch record. -/
def decodeEpochBytes (bs : List Nat) : Option EpochState :=
  (decEpoch bs).map Prod.fst

/- ### Well-formedness: the value ranges u64 fields and chrono timestamps live in -/

/-- The length of a Rust String fits in the u64 length prefix. -/
def WFString (s : String) : Prop := s.data.length < U64MOD

/-- All numeric fields of a MintProof are in u64 range. -/
def WFMint (p : MintProof) : Prop :=
  WFString p.proof ∧ p.amount < U64MOD ∧ p.timestamp.natAbs < U64MOD

/-- All numeric fields of a BurnProof are in u64 range. -/
def WFBurn (b : BurnProof) : Prop :=
  WFString b.secret ∧ b.amount < U64MOD ∧ b.timestamp.natAbs < U64MOD

/-- All numeric fields of an EpochState are in u64 range. -/
def WFEpoch (e : EpochState) : Prop :=
  e.epoch_id < U64MOD ∧ e.start_time.natAbs < U64MOD ∧
  e.mint_proofs.length < U64MOD ∧ e.burn_proofs.length < U64MOD ∧
  (∀ p ∈ e.mint_proofs, WFMint p) ∧ (∀ b ∈ e.burn_proofs, WFBurn b)

instance (s : String) : Decidable (WFString s) := by unfold WFString; infer_instance

instance (p : MintProof) : Decidable (WFMint p) := by unfold WFMint; infer_instance

instance (b : BurnProof) : Decidable (WFBurn b) := by unfold WFBurn; infer_instance

instance (e : EpochState) : Decidable (WFEpoch e) := by unfold WFEpoch; infer_instance

/- ### Round-trip lemmas for the codec -/

theorem dU64_enc (n : Nat) (r : List Nat) (h : n < U64MOD) :
    dU64 (encU64 n ++ r) = some (n, r) := by
  simp only [encU64, List.cons_append, List.nil_append, dU64, Option.some.injEq,
    Prod.mk.injEq, and_true]
  unfold U64MOD at h
  omega

theorem dI64_enc (t : Int) (r : List Nat) (h : t.natAbs < U64MOD) :
    dI64 (encI64 t ++ r) = some (t, r) := by
  by_cases ht : t < 0
  · simp [encI64, ht, dI64, dU64_enc _ _ h, abs_of_neg ht]
  · simp [encI64, ht, dI64, dU64_enc _ _ h, abs_of_nonneg (not_lt.mp ht)]

theorem dChars_enc (cs : List Char) (r : List Nat) :
    dChars cs.length (encChars cs ++ r) = some (cs, r) := by
  induction cs with
  | nil => simp [encChars, dChars]
  | cons c cs ih =>
      simp only [encChars, List.map_cons, List.length_cons, List.cons_append, dChars,
        List.append_eq]
      simp only [encChars] at ih
      rw [ih, Char.ofNat_toNat]

theorem dString_enc (s : String) (r : List Nat) (h : WFString s) :
    dString (encString s ++ r) = some (s, r) := by
  simp only [encString, List.append_assoc, dString, dU64_enc _ _ h, dChars_enc]

theorem dMany_enc (dec : List Nat → Option (α × List Nat)) (enc : α → List Nat)
    (l : List α) (r : List Nat)
    (h : ∀ a ∈ l, ∀ r2, dec (enc a ++ r2) = some (a, r2)) :
    dMany dec l.length ((l.map enc).flatten ++ r) = some (l, r) := by
  induction l with
  | nil => simp [dMany]
  | cons a l ih =>
      have ha := h a (List.mem_cons_self a l)
      have hl : ∀ b ∈ l, ∀ r2, dec (enc b ++ r2) = some (b, r2) :=
        fun b hb => h b (List.mem_cons_of_mem a hb)
      simp only [List.map_cons, List.flatten_cons, List.length_cons, dMany,
        List.append_assoc, ha, ih hl]

theorem dList_enc (dec : List Nat → Option (α × List Nat)) (enc : α → List Nat)
    (l : List α) (r : List Nat) (hlen : l.length < U64MOD)
    (h : ∀ a ∈ l, ∀ r2, dec (enc a ++ r2) = some (a, r2)) :
    dList dec (encList enc l ++ r) = some (l, r) := by
  simp only [encList, List.append_assoc, dList, dU64_enc _ _ hlen, dMany_enc dec enc l r h]

theorem decMint_enc (p : MintProof) (r : List Nat) (h : WFMint p) :
    decMint (encMint p ++ r) = some (p, r) := by
  obtain ⟨h1, h2, h3⟩ := h
  simp only [encMint, List.append_assoc, decMint, dString_enc _ _ h1, dU64_enc _ _ h2,
    dI64_enc _ _ h3]

theorem decBurn_enc (b : BurnProof) (r : List Nat) (h : WFBurn b) :
    decBurn (encBurn b ++ r) = some (b, r) := by
  obtain ⟨h1, h2, h3⟩ := h
  simp only [encBurn, List.append_assoc, decBurn, dString_enc _ _ h1, dU64_enc _ _ h2,
    dI64_enc _ _ h3]

theorem decEpoch_enc (e : EpochState) (r : List Nat) (h : WFEpoch e) :
    decEpoch (encEpoch e ++ r) = some (e, r) := by
  obtain ⟨h1, h2, h3, h4, h5, h6⟩ := h
  simp only [encEpoch, List.append_assoc, decEpoch, dU64_enc _ _ h1, dI64_enc _ _ h2,
    dList_enc decMint encMint _ _ h3 (fun p hp r2 => decMint_enc p r2 (h5 p hp)),
    dList_enc decBurn encBurn _ _ h4 (fun b hb r2 => decBurn_enc b r2 (h6 b hb))]

theorem decodeEpochBytes_enc (e : EpochState) (h : WFEpoch e) :
    decodeEpochBytes (encEpoch e) = some e := by
  have h2 := decEpoch_enc e [] h
  rw [List.append_nil] at h2
  simp [decodeEpochBytes, h2]

/- ### src/storage.rs : the Storage adapter over redb -/

/-- src/storage.rs Storage: the epochs table (redb B-tree keyed by u64, iterated in
ascending key order, values are bincode-encoded EpochState records) and the
single-entry current_epoch table. -/
structure Storage where
  epochs : List (Nat × List Nat)
  currentPtr : Option Nat
deriving DecidableEq

/-- redb Table::insert on the epochs B-tree: upsert keeping entries sorted by key. -/
def putEpochEntry (k : Nat) (v : List Nat) : List (Nat × List Nat) → List (Nat × List Nat)
  | [] => [(k, v)]
  | kv :: rest =>
      if k < kv.1 then (k, v) :: kv :: rest
      else if k = kv.1 then (k, v) :: rest
      else kv :: putEpochEntry k v rest

/-- Storage::save_epoch: serialize the record and insert it keyed by its epoch_id. -/
def Storage.save_epoch (st : Storage) (e : EpochState) : Storage :=
  { st with epochs := putEpochEntry e.epoch_id (encEpoch e) st.epochs }

/-- Storage::get_epoch: point lookup, deserializing the stored value; absence is
Ok(None), a decode failure is a DatabaseDeserializationError. -/
def Storage.get_epoch (st : Storage) (id : Nat) : Except PolError (Option EpochState) :=
  match st.epochs.find? (fun kv => kv.1 == id) with
  | none => .ok none
  | some kv =>
      match decodeEpochBytes kv.2 with
      | some e => .ok (some e)
      | none => .error (.DatabaseDeserializationError ("invalid epoch record"))

/-- Storage::list_epochs: iterate the table in redb key order, deserializing every
value; the first decode failure aborts with a DatabaseDeserializationError. -/
def listEpochsAux : List (Nat × List Nat) → Except PolError (List EpochState)
  | [] => .ok []
  | kv :: rest =>
      match decodeEpochBytes kv.2 with
      | some e =>
          match listEpochsAux rest with
          | .ok es => .ok (e :: es)
          | .error err => .error err
      | none => .error (.DatabaseDeserializationError ("invalid epoch record"))

/-- Storage::list_epochs. -/
def Storage.list_epochs (st : Storage) : Except PolError (List EpochState) :=
  listEpochsAux st.epochs

/-- Storage::delete_epoch: remove the record; a no-op when absent. -/
def Storage.delete_epoch (st : Storage) (id : Nat) : Storage :=
  { st with epochs := st.epochs.filter (fun kv => kv.1 != id) }

/-- Storage::save_current_epoch. -/
def Storage.save_current_epoch (st : Storage) (id : Nat) : Storage :=
  { st with currentPtr := some id }

/-- Storage::get_current_epoch. -/
def Storage.get_current_epoch (st : Storage) : Option Nat :=
  st.currentPtr

/- ### src/service.rs : the PolService -/

/-- src/service.rs PolService: the storage handle, the in-memory current-epoch id
(behind an RwLock in the source), the epoch duration used only for report end
times, and the retention bound. -/
structure PolService where
  storage : Storage
  current_epoch : Nat
  epoch_duration : Int
  max_epoch_history : Nat
deriving DecidableEq

/-- PolService::with_path over a fresh (empty) database: the in-memory current
epoch starts at 0. -/
def PolService.fresh (max_epoch_history : Nat) (epoch_duration : Int) : PolService :=
  ⟨⟨[], none⟩, 0, epoch_duration, max_epoch_history⟩

/-- PolService::initialize: adopt the stored pointer when present, otherwise create
and persist epoch 0 with empty sets and persist the pointer 0. -/
def PolService.init_service (s : PolService) (now : Int) : PolService :=
  match s.storage.get_current_epoch with
  | some epoch_id => { s with current_epoch := epoch_id }
  | none =>
      let epoch_state : EpochState := ⟨0, now, [], []⟩
      let st1 := s.storage.save_epoch epoch_state
      { s with storage := st1.save_current_epoch 0, current_epoch := 0 }

/-- PolService::record_mint_proof: load the current epoch (failing with
InvalidEpoch when it is missing), insert a MintProof stamped now into its set and
save the whole epoch back. -/
def PolService.record_mint_proof (s : PolService) (proof : String) (amount : Nat)
    (now : Int) : Except PolError PolService := do
  let current_epoch := s.current_epoch
  match ← s.storage.get_epoch current_epoch with
  | none =>
      .error (.InvalidEpoch ("Epoch " ++ toString current_epoch ++ " not found"))
  | some epoch_state =>
      let mint_proof : MintProof := ⟨proof, amount, now⟩
      let epoch2 := { epoch_state with
        mint_proofs := insertEvent epoch_state.mint_proofs mint_proof }
      .ok { s with storage := s.storage.save_epoch epoch2 }

/-- PolService::record_burn_proof: the burn-side analogue of record_mint_proof. -/
def PolService.record_burn_proof (s : PolService) (secret : String) (amount : Nat)
    (now : Int) : Except PolError PolService := do
  let current_epoch := s.current_epoch
  match ← s.storage.get_epoch current_epoch with
  | none =>
      .error (.InvalidEpoch ("Epoch " ++ toString current_epoch ++ " not found"))
  | some epoch_state =>
      let burn_proof : BurnProof := ⟨secret, amount, now⟩
      let epoch2 := { epoch_state with
        burn_proofs := insertEvent epoch_state.burn_proofs burn_proof }
      .ok { s with storage := s.storage.save_epoch epoch2 }

/-- Insertion into a sorted list of ids, the building block of sort_unstable. -/
def insertSorted (n : Nat) : List Nat → List Nat
  | [] => [n]
  | m :: ms => if n ≤ m then n :: m :: ms else m :: insertSorted n ms

/-- Vec::sort_unstable on the collected epoch ids. -/
def sortNat (l : List Nat) : List Nat := l.foldr insertSorted []

/-- The retention while-loop of rotate_epoch: while more epochs remain than
max_epoch_history, delete the first (smallest) id of the sorted id list. -/
def evictLoop (maxH : Nat) : List Nat → Storage → Storage
  | [], st => st
  | id :: rest, st =>
      if rest.length + 1 > maxH then evictLoop maxH rest (st.delete_epoch id)
      else st

/-- PolService::rotate_epoch: advance the in-memory id, persist a fresh empty epoch
under the new id, persist the pointer, then enforce retention by deleting oldest
ids while the stored count exceeds max_epoch_history.  The u64 increment of the
epoch id is modelled on Nat: wraparound would need 2^64 rotations (and a debug
build panics there), far beyond the states the claims quantify over. -/
def PolService.rotate_epoch (s : PolService) (now : Int) :
    Except PolError (Nat × PolService) := do
  let new_epoch_id := s.current_epoch + 1
  let epoch_state : EpochState := ⟨new_epoch_id, now, [], []⟩
  let st1 := s.storage.save_epoch epoch_state
  let st2 := st1.save_current_epoch new_epoch_id
  let epochs ← st2.list_epochs
  let st3 :=
    if epochs.length > s.max_epoch_history then
      evictLoop s.max_epoch_history (sortNat (epochs.map (fun e => e.epoch_id))) st2
    else st2
  .ok (new_epoch_id, { s with storage := st3, current_epoch := new_epoch_id })

/-- u64 wrapping addition: the release-profile semantics of the plain + operator. -/
def wadd (a b : Nat) : Nat := (a + b) % U64MOD

/-- Iterator::sum on u64 amounts. -/
def sumAmounts64 (l : List Nat) : Nat := l.foldl wadd 0

/-- The per-epoch outstanding balance of generate_report:
mint_total.saturating_sub(burn_total); Nat subtraction is exactly u64
saturating_sub below 2^64. -/
def epochOutstanding (e : EpochState) : Nat :=
  sumAmounts64 (e.mint_proofs.map (fun p => p.amount)) -
    sumAmounts64 (e.burn_proofs.map (fun b => b.amount))

/-- The report-building loop of generate_report, in storage enumeration order,
threading the running total (plain u64 addition). -/
def buildReports (cur : Nat) (dur : Int) :
    List EpochState → Nat → List EpochReport × Nat
  | [], total => ([], total)
  | e :: rest, total =>
      let outstanding_balance := epochOutstanding e
      let total2 := wadd total outstanding_balance
      let report : EpochReport :=
        ⟨e.epoch_id, e.start_time,
         if e.epoch_id < cur then some (e.start_time + dur) else none,
         e.mint_proofs, e.burn_proofs, outstanding_balance⟩
      let (reports, totalEnd) := buildReports cur dur rest total2
      (report :: reports, totalEnd)

/-- The pure part of generate_report applied to the epoch list the storage layer
enumerated. -/
def reportFromEpochs (epochs : List EpochState) (cur : Nat) (dur : Int)
    (now : Int) : PolReport :=
  ⟨(buildReports cur dur epochs 0).1, (buildReports cur dur epochs 0).2, now⟩

/-- PolService::generate_report. -/
def PolService.generate_report (s : PolService) (now : Int) :
    Except PolError PolReport := do
  let epochs ← s.storage.list_epochs
  .ok (reportFromEpochs epochs s.current_epoch s.epoch_duration now)

/-- PolService::verify_mint_proof: membership of the proof value in one historical
epoch, InvalidEpoch when the epoch record is absent. -/
def PolService.verify_mint_proof (s : PolService) (epoch_id : Nat) (proof : String) :
    Except PolError Bool := do
  match ← s.storage.get_epoch epoch_id with
  | some epoch_state => .ok (epoch_state.mint_proofs.any (fun p => p.proof == proof))
  | none => .error (.InvalidEpoch ("Epoch " ++ toString epoch_id ++ " not found"))

/-- PolService::verify_burn_proof: membership of the secret in one historical
epoch, InvalidEpoch when the epoch record is absent. -/
def PolService.verify_burn_proof (s : PolService) (epoch_id : Nat) (secret : String) :
    Except PolError Bool := do
  match ← s.storage.get_epoch epoch_id with
  | some epoch_state => .ok (epoch_state.burn_proofs.any (fun b => b.secret == secret))
  | none => .error (.InvalidEpoch ("Epoch " ++ toString epoch_id ++ " not found"))

/- ### Storage-level helper lemmas -/

/-- A storage whose epochs table holds exactly the given records, in order. -/
def mkStorage (es : List EpochState) (ptr : Option Nat) : Storage :=
  ⟨es.map (fun e => (e.epoch_id, encEpoch e)), ptr⟩

/-- Record-level view of putEpochEntry. -/
def insertES (e : EpochState) : List EpochState → List EpochState
  | [] => [e]
  | x :: xs =>
      if e.epoch_id < x.epoch_id then e :: x :: xs
      else if e.epoch_id = x.epoch_id then e :: xs
      else x :: insertES e xs

theorem save_epoch_mkStorage (es : List EpochState) (ptr : Option Nat) (e : EpochState) :
    (mkStorage es ptr).save_epoch e = mkStorage (insertES e es) ptr := by
  induction es with
  | nil => rfl
  | cons x xs ih =>
      have ih2 : putEpochEntry e.epoch_id (encEpoch e)
          (xs.map (fun y => (y.epoch_id, encEpoch y))) =
          (insertES e xs).map (fun y => (y.epoch_id, encEpoch y)) :=
        congrArg Storage.epochs ih
      simp only [mkStorage, Storage.save_epoch, List.map_cons, putEpochEntry, insertES]
      by_cases h1 : e.epoch_id < x.epoch_id
      · simp [h1]
      · by_cases h2 : e.epoch_id = x.epoch_id
        · simp [h1, h2]
        · simp [h1, h2, ih2]

theorem delete_epoch_mkStorage (es : List EpochState) (ptr : Option Nat) (id : Nat) :
    (mkStorage es ptr).delete_epoch id =
      mkStorage (es.filter (fun e => e.epoch_id != id)) ptr := by
  simp only [mkStorage, Storage.delete_epoch, Storage.mk.injEq, and_true]
  induction es with
  | nil => rfl
  | cons x xs ih =>
      simp only [List.map_cons, List.filter_cons]
      by_cases h : (x.epoch_id != id) = true
      · simp [h, ih]
      · simp [h, ih]

theorem save_current_epoch_mkStorage (es : List EpochState) (ptr : Option Nat) (id : Nat) :
    (mkStorage es ptr).save_current_epoch id = mkStorage es (some id) := rfl

theorem list_epochs_mkStorage (es : List EpochState) (ptr : Option Nat)
    (h : ∀ e ∈ es, WFEpoch e) :
    (mkStorage es ptr).list_epochs = .ok es := by
  induction es with
  | nil => rfl
  | cons e es ih =>
      have he := h e (List.mem_cons_self e es)
      have hrest : ∀ x ∈ es, WFEpoch x := fun x hx => h x (List.mem_cons_of_mem e hx)
      have ihres := ih hrest
      simp only [mkStorage, Storage.list_epochs, List.map_cons, listEpochsAux,
        decodeEpochBytes_enc e he]
      simp only [mkStorage, Storage.list_epochs] at ihres
      rw [ihres]

theorem get_epoch_mkStorage (es : List EpochState) (ptr : Option Nat) (id : Nat)
    (h : ∀ e ∈ es, WFEpoch e) :
    (mkStorage es ptr).get_epoch id =
      .ok (es.find? (fun e => e.epoch_id == id)) := by
  induction es with
  | nil => rfl
  | cons e es ih =>
      have he := h e (List.mem_cons_self e es)
      have hrest : ∀ x ∈ es, WFEpoch x := fun x hx => h x (List.mem_cons_of_mem e hx)
      have ihres := ih hrest
      by_cases hid : e.epoch_id = id
      · simp [mkStorage, Storage.get_epoch, List.find?, hid, decodeEpochBytes_enc e he]
      · have hbeq : (e.epoch_id == id) = false := by simp [hid]
        simp only [mkStorage, Storage.get_epoch, List.map_cons, List.find?, hbeq]
        simp only [mkStorage, Storage.get_epoch] at ihres
        exact ihres

/-- putEpochEntry with a key above every present key appends. -/
theorem insertES_eq_append (e : EpochState) (es : List EpochState)
    (h : ∀ x ∈ es, x.epoch_id < e.epoch_id) :
    insertES e es = es ++ [e] := by
  induction es with
  | nil => rfl
  | cons x xs ih =>
      have hx := h x (List.mem_cons_self x xs)
      have h1 : ¬ e.epoch_id < x.epoch_id := by omega
      have h2 : ¬ e.epoch_id = x.epoch_id := by omega
      simp only [insertES, h1, h2, if_false, List.cons_append, List.cons.injEq, true_and]
      exact ih (fun y hy => h y (List.mem_cons_of_mem x hy))

theorem insertSorted_of_lt (n : Nat) (l : List Nat) (h : ∀ m ∈ l, n < m) :
    insertSorted n l = n :: l := by
  cases l with
  | nil => rfl
  | cons m ms =>
      have := h m (List.mem_cons_self m ms)
      simp [insertSorted, Nat.le_of_lt this]

/-- sort_unstable leaves an already strictly ascending list unchanged. -/
theorem sortNat_eq_self (l : List Nat) (h : l.Pairwise (fun a b => a < b)) :
    sortNat l = l := by
  induction l with
  | nil => rfl
  | cons x xs ih =>
      rw [List.pairwise_cons] at h
      simp only [sortNat, List.foldr_cons]
      have ihres : sortNat xs = xs := ih h.2
      simp only [sortNat] at ihres
      rw [ihres, insertSorted_of_lt x xs h.1]

/-- The retention loop on a storage whose sorted id list is exactly the stored keys:
it drops the oldest entries down to the bound. -/
theorem evictLoop_mkStorage (maxH : Nat) (ids : List Nat) :
    ∀ (es : List EpochState) (ptr : Option Nat),
    es.map (fun e => e.epoch_id) = ids → ids.Pairwise (fun a b => a < b) →
    evictLoop maxH ids (mkStorage es ptr) =
      mkStorage (es.drop (ids.length - maxH)) ptr := by
  induction ids with
  | nil =>
      intro es ptr hmap _
      have : es = [] := by
        cases es with
        | nil => rfl
        | cons x xs => simp at hmap
      subst this
      simp [evictLoop, List.drop_nil]
  | cons id rest ih =>
      intro es ptr hmap hpw
      cases es with
      | nil => simp at hmap
      | cons e es2 =>
          simp only [List.map_cons, List.cons.injEq] at hmap
          obtain ⟨hed, hmap2⟩ := hmap
          rw [List.pairwise_cons] at hpw
          by_cases hgt : rest.length + 1 > maxH
          · have hdel : (mkStorage (e :: es2) ptr).delete_epoch id =
                mkStorage es2 ptr := by
              rw [delete_epoch_mkStorage]
              congr 1
              simp only [List.filter]
              have hne : (e.epoch_id != id) = false := by simp [hed]
              rw [hne]
              apply List.filter_eq_self.mpr
              intro x hx
              have hxid : x.epoch_id ∈ rest := by
                rw [← hmap2]; exact List.mem_map_of_mem _ hx
              have := hpw.1 _ hxid
              simp only [bne_iff_ne, ne_eq, decide_eq_true_eq]
              omega
            simp only [evictLoop, hgt, if_true]
            rw [hdel, ih es2 ptr hmap2 hpw.2]
            have : (id :: rest).length - maxH = (rest.length - maxH) + 1 := by
              simp only [List.length_cons]; omega
            rw [this]
            rfl
          · simp only [evictLoop, hgt, if_false]
            have : (id :: rest).length - maxH = 0 := by
              simp only [List.length_cons]; omega
            rw [this, List.drop_zero]

theorem find?_putEpochEntry (k : Nat) (v : List Nat) (l : List (Nat × List Nat)) :
    (putEpochEntry k v l).find? (fun kv => kv.1 == k) = some (k, v) := by
  induction l with
  | nil => simp [putEpochEntry, List.find?]
  | cons kv rest ih =>
      simp only [putEpochEntry]
      by_cases h1 : k < kv.1
      · simp [h1, List.find?]
      · by_cases h2 : k = kv.1
        · simp [h1, h2, List.find?]
        · have hne : (kv.1 == k) = false := by
            simp only [beq_eq_false_iff_ne, ne_eq]
            omega
          simp only [h1, if_false, h2, List.find?, hne]
          exact ih

/-- Point lookup straight after save_epoch returns the exact record saved: the
round trip through bincode and the epochs table is the identity. -/
theorem get_epoch_save_epoch (st : Storage) (e : EpochState) (h : WFEpoch e) :
    (st.save_epoch e).get_epoch e.epoch_id = .ok (some e) := by
  simp only [Storage.save_epoch, Storage.get_epoch, find?_putEpochEntry,
    decodeEpochBytes_enc e h]

theorem find?_append_none (p : α → Bool) (l1 l2 : List α)
    (h : ∀ x ∈ l1, p x = false) :
    (l1 ++ l2).find? p = l2.find? p := by
  induction l1 with
  | nil => rfl
  | cons x xs ih =>
      simp only [List.cons_append, List.find?, h x (List.mem_cons_self x xs)]
      exact ih (fun y hy => h y (List.mem_cons_of_mem x hy))

/-- Full characterization of a successful rotate_epoch from a well-formed state:
the new id is current + 1, the pointer is advanced, and the stored set becomes
the tail of the pre-eviction records (sorted ascending, the new one at the end)
that fits within max_epoch_history. -/
theorem rotate_spec (s : PolService) (es : List EpochState) (ptr : Option Nat) (t : Int)
    (hst : s.storage = mkStorage es ptr)
    (hwf : ∀ e ∈ es, WFEpoch e)
    (hsorted : es.Pairwise (fun a b => a.epoch_id < b.epoch_id))
    (hids : ∀ e ∈ es, e.epoch_id ≤ s.current_epoch)
    (hcur : s.current_epoch + 1 < U64MOD)
    (ht : t.natAbs < U64MOD) :
    s.rotate_epoch t = .ok (s.current_epoch + 1,
      { s with
        storage := mkStorage
          ((es ++ [(⟨s.current_epoch + 1, t, [], []⟩ : EpochState)]).drop
            (es.length + 1 - s.max_epoch_history)) (some (s.current_epoch + 1)),
        current_epoch := s.current_epoch + 1 }) := by
  have hwfnew : WFEpoch ⟨s.current_epoch + 1, t, [], []⟩ := by
    refine ⟨hcur, ht, ?_, ?_, ?_, ?_⟩
    · show (0 : Nat) < U64MOD
      unfold U64MOD
      omega
    · show (0 : Nat) < U64MOD
      unfold U64MOD
      omega
    · intro p hp; simp at hp
    · intro b hb; simp at hb
  have hins : insertES ⟨s.current_epoch + 1, t, [], []⟩ es =
      es ++ [(⟨s.current_epoch + 1, t, [], []⟩ : EpochState)] :=
    insertES_eq_append _ _ (fun x hx => by
      show x.epoch_id < s.current_epoch + 1
      have := hids x hx
      omega)
  have hwfall : ∀ e ∈ es ++ [(⟨s.current_epoch + 1, t, [], []⟩ : EpochState)],
      WFEpoch e := by
    intro x hx
    rcases List.mem_append.mp hx with hx1 | hx2
    · exact hwf x hx1
    · simp only [List.mem_singleton] at hx2
      subst hx2
      exact hwfnew
  have hidsorted : (es ++ [(⟨s.current_epoch + 1, t, [], []⟩ : EpochState)]).Pairwise
      (fun a b => a.epoch_id < b.epoch_id) := by
    rw [List.pairwise_append]
    refine ⟨hsorted, List.pairwise_singleton _ _, ?_⟩
    intro a ha b hb
    simp only [List.mem_singleton] at hb
    subst hb
    show a.epoch_id < s.current_epoch + 1
    have := hids a ha
    omega
  have hpwids : ((es ++ [(⟨s.current_epoch + 1, t, [], []⟩ : EpochState)]).map
      (fun e => e.epoch_id)).Pairwise (fun a b => a < b) :=
    (List.pairwise_map).mpr hidsorted
  simp only [PolService.rotate_epoch, hst, save_epoch_mkStorage, hins,
    save_current_epoch_mkStorage, list_epochs_mkStorage _ _ hwfall, bind, Except.bind]
  by_cases hcond : (es ++ [(⟨s.current_epoch + 1, t, [], []⟩ : EpochState)]).length >
      s.max_epoch_history
  · simp only [hcond, if_true, sortNat_eq_self _ hpwids,
      evictLoop_mkStorage s.max_epoch_history _ _ _ rfl hpwids, List.length_map]
    simp only [List.length_append, List.length_singleton]
  · simp only [hcond, if_false]
    have hlen : es.length + 1 - s.max_epoch_history = 0 := by
      simp only [List.length_append, List.length_singleton, gt_iff_lt, not_lt] at hcond
      omega
    rw [hlen, List.drop_zero]

/- ### Report-level helper lemmas -/

theorem buildReports_ids (cur : Nat) (dur : Int) (es : List EpochState) :
    ∀ acc : Nat,
    (buildReports cur dur es acc).1.map (fun r => r.epoch_id) =
      es.map (fun e => e.epoch_id) := by
  induction es with
  | nil => intro acc; rfl
  | cons e rest ih =>
      intro acc
      simp only [buildReports, List.map_cons]
      rw [ih]

theorem buildReports_total (cur : Nat) (dur : Int) (es : List EpochState) :
    ∀ acc : Nat,
    (buildReports cur dur es acc).2 =
      ((buildReports cur dur es acc).1.map
        (fun r => r.outstanding_balance)).foldl wadd acc := by
  induction es with
  | nil => intro acc; rfl
  | cons e rest ih =>
      intro acc
      simp only [buildReports, List.map_cons, List.foldl_cons]
      rw [ih]

theorem buildReports_outstanding (cur : Nat) (dur : Int) (es : List EpochState) :
    ∀ acc : Nat, ∀ r ∈ (buildReports cur dur es acc).1,
    r.outstanding_balance =
      sumAmounts64 (r.mint_proofs.map (fun p => p.amount)) -
        sumAmounts64 (r.burn_proofs.map (fun b => b.amount)) := by
  induction es with
  | nil => intro acc r hr; simp [buildReports] at hr
  | cons e rest ih =>
      intro acc r hr
      simp only [buildReports, List.mem_cons] at hr
      rcases hr with hr | hr
      · subst hr
        rfl
      · exact ih _ r hr

/- ### Event-set helper lemmas -/

theorem mem_insertEvent [DecidableEq α] (l : List α) (x y : α) :
    y ∈ insertEvent l x ↔ y ∈ l ∨ y = x := by
  unfold insertEvent
  by_cases h : x ∈ l
  · simp only [h, if_true]
    constructor
    · exact Or.inl
    · rintro (hy | hy)
      · exact hy
      · subst hy; exact h
  · simp [h]

theorem nodup_insertEvent [DecidableEq α] (l : List α) (x : α) (h : l.Nodup) :
    (insertEvent l x).Nodup := by
  unfold insertEvent
  by_cases hx : x ∈ l
  · simp [hx, h]
  · simp only [hx, if_false]
    rw [List.nodup_append]
    refine ⟨h, List.nodup_singleton x, ?_⟩
    intro a ha hax
    rw [List.mem_singleton] at hax
    subst hax
    exact hx ha

theorem length_insertEvent [DecidableEq α] (l : List α) (x : α) :
    (insertEvent l x).length ≤ l.length + 1 := by
  unfold insertEvent
  by_cases hx : x ∈ l
  · simp [hx]
  · simp [hx]

theorem mem_foldl_insertEvent [DecidableEq α] (l2 : List α) :
    ∀ (l1 : List α) (y : α), y ∈ l2.foldl insertEvent l1 ↔ y ∈ l1 ∨ y ∈ l2 := by
  induction l2 with
  | nil => intro l1 y; simp
  | cons x xs ih =>
      intro l1 y
      simp only [List.foldl_cons, ih, mem_insertEvent, List.mem_cons]
      tauto

theorem nodup_foldl_insertEvent [DecidableEq α] (l2 : List α) :
    ∀ l1 : List α, l1.Nodup → (l2.foldl insertEvent l1).Nodup := by
  induction l2 with
  | nil => intro l1 h; exact h
  | cons x xs ih =>
      intro l1 h
      exact ih _ (nodup_insertEvent _ _ h)

/-- The deduplicated multiset a sequence of HashSet inserts leaves behind. -/
def dedupKeep [DecidableEq α] (l : List α) : List α := l.foldl insertEvent []

theorem mem_dedupKeep [DecidableEq α] (l : List α) (y : α) :
    y ∈ dedupKeep l ↔ y ∈ l := by
  unfold dedupKeep
  rw [mem_foldl_insertEvent]
  simp

theorem nodup_dedupKeep [DecidableEq α] (l : List α) : (dedupKeep l).Nodup :=
  nodup_foldl_insertEvent l [] List.nodup_nil

theorem dedupKeep_perm [DecidableEq α] (l1 l2 : List α) (h : l1.Perm l2) :
    (dedupKeep l1).Perm (dedupKeep l2) := by
  refine (List.perm_ext_iff_of_nodup (nodup_dedupKeep l1) (nodup_dedupKeep l2)).2 ?_
  intro a
  rw [mem_dedupKeep, mem_dedupKeep]
  exact ⟨fun ha => h.mem_iff.1 ha, fun ha => h.mem_iff.2 ha⟩

/- ### u64 sum lemmas -/

theorem foldl_wadd_eq (l : List Nat) : ∀ acc : Nat, acc < U64MOD →
    l.foldl wadd acc = (acc + l.sum) % U64MOD := by
  induction l with
  | nil =>
      intro acc hacc
      simp only [List.foldl_nil, List.sum_nil, Nat.add_zero]
      exact (Nat.mod_eq_of_lt hacc).symm
  | cons x xs ih =>
      intro acc hacc
      have hlt : wadd acc x < U64MOD := by
        unfold wadd U64MOD
        omega
      simp only [List.foldl_cons, List.sum_cons]
      rw [ih _ hlt]
      unfold wadd
      rw [Nat.mod_add_mod]
      congr 1
      omega

theorem sumAmounts64_eq (l : List Nat) : sumAmounts64 l = l.sum % U64MOD := by
  unfold sumAmounts64
  rw [foldl_wadd_eq l 0 (by unfold U64MOD; omega)]
  simp

theorem sumAmounts64_lt (l : List Nat) : sumAmounts64 l < U64MOD := by
  rw [sumAmounts64_eq]
  exact Nat.mod_lt _ (by unfold U64MOD; omega)

theorem sumAmounts64_perm (l1 l2 : List Nat) (h : l1.Perm l2) :
    sumAmounts64 l1 = sumAmounts64 l2 := by
  rw [sumAmounts64_eq, sumAmounts64_eq, h.sum_eq]

/- ### Sequences of record calls against the current epoch -/

/-- One public record call: record_mint_proof or record_burn_proof, with the
timestamp Utc::now() returned during that call. -/
inductive RecordOp where
  | mint (proof : String) (amount : Nat) (now : Int)
  | burn (secret : String) (amount : Nat) (now : Int)
deriving DecidableEq

/-- Run a sequence of record calls through the service, stopping at the first
error, exactly as a caller issuing them one by one would. -/
def applyOps (s : PolService) : List RecordOp → Except PolError PolService
  | [] => .ok s
  | .mint pr a t :: ops => do applyOps (← s.record_mint_proof pr a t) ops
  | .burn sec a t :: ops => do applyOps (← s.record_burn_proof sec a t) ops

/-- The mint event a record call inserts, when it is a mint call. -/
def opMintEvent : RecordOp → Option MintProof
  | .mint pr a t => some ⟨pr, a, t⟩
  | .burn _ _ _ => none

/-- The burn event a record call inserts, when it is a burn call. -/
def opBurnEvent : RecordOp → Option BurnProof
  | .mint _ _ _ => none
  | .burn sec a t => some ⟨sec, a, t⟩

/-- The mint events of a call sequence, in call order. -/
def mintEvents (ops : List RecordOp) : List MintProof := ops.filterMap opMintEvent

/-- The burn events of a call sequence, in call order. -/
def burnEvents (ops : List RecordOp) : List BurnProof := ops.filterMap opBurnEvent

/-- The effect of a call sequence on the current epoch record alone. -/
def applyOpsEpoch (e : EpochState) : List RecordOp → EpochState
  | [] => e
  | .mint pr a t :: ops =>
      applyOpsEpoch { e with mint_proofs := insertEvent e.mint_proofs ⟨pr, a, t⟩ } ops
  | .burn sec a t :: ops =>
      applyOpsEpoch { e with burn_proofs := insertEvent e.burn_proofs ⟨sec, a, t⟩ } ops

/-- The u64/chrono ranges of the inputs of one record call. -/
def WFOp : RecordOp → Prop
  | .mint pr a t => WFString pr ∧ a < U64MOD ∧ t.natAbs < U64MOD
  | .burn sec a t => WFString sec ∧ a < U64MOD ∧ t.natAbs < U64MOD

instance (op : RecordOp) : Decidable (WFOp op) := by
  cases op <;> (unfold WFOp; infer_instance)

theorem record_mint_single (s : PolService) (e : EpochState) (ptr : Option Nat)
    (hst : s.storage = mkStorage [e] ptr) (hcur : s.current_epoch = e.epoch_id)
    (hwf : WFEpoch e) (pr : String) (a : Nat) (t : Int) :
    s.record_mint_proof pr a t = .ok
      { s with
        storage :=
          mkStorage [{ e with mint_proofs := insertEvent e.mint_proofs ⟨pr, a, t⟩ }]
            ptr } := by
  have hget : s.storage.get_epoch s.current_epoch = .ok (some e) := by
    rw [hst, get_epoch_mkStorage [e] ptr _ (by intro x hx; simp at hx; subst hx; exact hwf)]
    simp [List.find?, hcur]
  simp only [PolService.record_mint_proof, hget, bind, Except.bind]
  rw [hst, save_epoch_mkStorage]
  have : insertES { e with mint_proofs := insertEvent e.mint_proofs ⟨pr, a, t⟩ } [e] =
      [{ e with mint_proofs := insertEvent e.mint_proofs ⟨pr, a, t⟩ }] := by
    simp [insertES]
  rw [this]

theorem record_burn_single (s : PolService) (e : EpochState) (ptr : Option Nat)
    (hst : s.storage = mkStorage [e] ptr) (hcur : s.current_epoch = e.epoch_id)
    (hwf : WFEpoch e) (sec : String) (a : Nat) (t : Int) :
    s.record_burn_proof sec a t = .ok
      { s with
        storage :=
          mkStorage [{ e with burn_proofs := insertEvent e.burn_proofs ⟨sec, a, t⟩ }]
            ptr } := by
  have hget : s.storage.get_epoch s.current_epoch = .ok (some e) := by
    rw [hst, get_epoch_mkStorage [e] ptr _ (by intro x hx; simp at hx; subst hx; exact hwf)]
    simp [List.find?, hcur]
  simp only [PolService.record_burn_proof, hget, bind, Except.bind]
  rw [hst, save_epoch_mkStorage]
  have : insertES { e with burn_proofs := insertEvent e.burn_proofs ⟨sec, a, t⟩ } [e] =
      [{ e with burn_proofs := insertEvent e.burn_proofs ⟨sec, a, t⟩ }] := by
    simp [insertES]
  rw [this]

theorem WFEpoch_insert_mint (e : EpochState) (p : MintProof) (hwf : WFEpoch e)
    (hp : WFString p.proof ∧ p.amount < U64MOD ∧ p.timestamp.natAbs < U64MOD)
    (hlen : e.mint_proofs.length + 1 < U64MOD) :
    WFEpoch { e with mint_proofs := insertEvent e.mint_proofs p } := by
  obtain ⟨h1, h2, h3, h4, h5, h6⟩ := hwf
  refine ⟨h1, h2, ?_, h4, ?_, h6⟩
  · show (insertEvent e.mint_proofs p).length < U64MOD
    have := length_insertEvent e.mint_proofs p
    omega
  · intro q hq
    rcases (mem_insertEvent e.mint_proofs p q).1 hq with hq | hq
    · exact h5 q hq
    · subst hq
      exact hp

theorem WFEpoch_insert_burn (e : EpochState) (b : BurnProof) (hwf : WFEpoch e)
    (hb : WFString b.secret ∧ b.amount < U64MOD ∧ b.timestamp.natAbs < U64MOD)
    (hlen : e.burn_proofs.length + 1 < U64MOD) :
    WFEpoch { e with burn_proofs := insertEvent e.burn_proofs b } := by
  obtain ⟨h1, h2, h3, h4, h5, h6⟩ := hwf
  refine ⟨h1, h2, h3, ?_, h5, ?_⟩
  · show (insertEvent e.burn_proofs b).length < U64MOD
    have := length_insertEvent e.burn_proofs b
    omega
  · intro q hq
    rcases (mem_insertEvent e.burn_proofs b q).1 hq with hq | hq
    · exact h6 q hq
    · subst hq
      exact hb

theorem applyOps_single (ops : List RecordOp) :
    ∀ (s : PolService) (e : EpochState) (ptr : Option Nat),
    s.storage = mkStorage [e] ptr → s.current_epoch = e.epoch_id → WFEpoch e →
    (∀ op ∈ ops, WFOp op) →
    e.mint_proofs.length + ops.length < U64MOD →
    e.burn_proofs.length + ops.length < U64MOD →
    applyOps s ops = .ok { s with storage := mkStorage [applyOpsEpoch e ops] ptr } := by
  induction ops with
  | nil =>
      intro s e ptr hst hcur hwf _ _ _
      simp only [applyOps, applyOpsEpoch]
      rw [← hst]
  | cons op ops ih =>
      intro s e ptr hst hcur hwf hops hm hb
      have hophd : WFOp op := hops op (List.mem_cons_self op ops)
      have hoptl : ∀ x ∈ ops, WFOp x := fun x hx => hops x (List.mem_cons_of_mem op hx)
      cases op with
      | mint pr a t =>
          simp only [applyOps, record_mint_single s e ptr hst hcur hwf pr a t, bind,
            Except.bind]
          have hwf2 : WFEpoch { e with mint_proofs := insertEvent e.mint_proofs ⟨pr, a, t⟩ } :=
            WFEpoch_insert_mint e ⟨pr, a, t⟩ hwf hophd
              (by
                show e.mint_proofs.length + 1 < U64MOD
                simp only [List.length_cons] at hm
                omega)
          have hres := ih
            { s with
              storage :=
                mkStorage [{ e with mint_proofs := insertEvent e.mint_proofs ⟨pr, a, t⟩ }]
                  ptr }
            { e with mint_proofs := insertEvent e.mint_proofs ⟨pr, a, t⟩ } ptr rfl hcur hwf2
            hoptl
            (by
              show (insertEvent e.mint_proofs (⟨pr, a, t⟩ : MintProof)).length +
                ops.length < U64MOD
              have := length_insertEvent e.mint_proofs (⟨pr, a, t⟩ : MintProof)
              simp only [List.length_cons] at hm
              omega)
            (by
              show e.burn_proofs.length + ops.length < U64MOD
              simp only [List.length_cons] at hb
              omega)
          rw [hres]
          rfl
      | burn sec a t =>
          simp only [applyOps, record_burn_single s e ptr hst hcur hwf sec a t, bind,
            Except.bind]
          have hwf2 : WFEpoch { e with burn_proofs := insertEvent e.burn_proofs ⟨sec, a, t⟩ } :=
            WFEpoch_insert_burn e ⟨sec, a, t⟩ hwf hophd
              (by
                show e.burn_proofs.length + 1 < U64MOD
                simp only [List.length_cons] at hb
                omega)
          have hres := ih
            { s with
              storage :=
                mkStorage [{ e with burn_proofs := insertEvent e.burn_proofs ⟨sec, a, t⟩ }]
                  ptr }
            { e with burn_proofs := insertEvent e.burn_proofs ⟨sec, a, t⟩ } ptr rfl hcur hwf2
            hoptl
            (by
              show e.mint_proofs.length + ops.length < U64MOD
              simp only [List.length_cons] at hm
              omega)
            (by
              show (insertEvent e.burn_proofs (⟨sec, a, t⟩ : BurnProof)).length +
                ops.length < U64MOD
              have := length_insertEvent e.burn_proofs (⟨sec, a, t⟩ : BurnProof)
              simp only [List.length_cons] at hb
              omega)
          rw [hres]
          rfl

theorem applyOpsEpoch_fields (ops : List RecordOp) : ∀ e : EpochState,
    (applyOpsEpoch e ops).epoch_id = e.epoch_id ∧
    (applyOpsEpoch e ops).start_time = e.start_time ∧
    (applyOpsEpoch e ops).mint_proofs = (mintEvents ops).foldl insertEvent e.mint_proofs ∧
    (applyOpsEpoch e ops).burn_proofs = (burnEvents ops).foldl insertEvent e.burn_proofs := by
  induction ops with
  | nil => intro e; simp [applyOpsEpoch, mintEvents, burnEvents]
  | cons op ops ih =>
      intro e
      cases op with
      | mint pr a t =>
          simp only [applyOpsEpoch, mintEvents, burnEvents, List.filterMap_cons, opMintEvent,
            opBurnEvent, List.foldl_cons]
          exact ih _
      | burn sec a t =>
          simp only [applyOpsEpoch, mintEvents, burnEvents, List.filterMap_cons, opMintEvent,
            opBurnEvent, List.foldl_cons]
          exact ih _

deriving instance DecidableEq for Except

/- ### Claim theorems -/

/-- C8: epoch persistence round-trips exactly: for every EpochState value e (with
its u64 fields in range and timestamps in the chrono range), saving e with
save_epoch and reading it back with get_epoch e.epoch_id yields Some of a value
identical to e, including the timestamps and the two proof-event sets. -/
theorem save_epoch_get_epoch_roundtrip (st : Storage) (e : EpochState)
    (h : WFEpoch e) :
    (st.save_epoch e).get_epoch e.epoch_id = .ok (some e) :=
  get_epoch_save_epoch st e h

/-- C8 witness: a concrete epoch with one mint and one burn event, a negative
event timestamp included, survives the save/get round trip unchanged. -/
theorem save_epoch_get_epoch_roundtrip_witness :
    WFEpoch (⟨3, 11, [⟨"p1", 700, 12⟩], [⟨"s1", 300, -4⟩]⟩ : EpochState) ∧
    ((Storage.mk [] none).save_epoch
        (⟨3, 11, [⟨"p1", 700, 12⟩], [⟨"s1", 300, -4⟩]⟩ : EpochState)).get_epoch 3 =
      .ok (some (⟨3, 11, [⟨"p1", 700, 12⟩], [⟨"s1", 300, -4⟩]⟩ : EpochState)) :=
  ⟨by decide,
   save_epoch_get_epoch_roundtrip (Storage.mk [] none)
     (⟨3, 11, [⟨"p1", 700, 12⟩], [⟨"s1", 300, -4⟩]⟩ : EpochState) (by decide)⟩

/-- C9: initialize reads the stored pointer: when it is absent it creates epoch 0
with empty sets, persists it and persists the pointer 0; when it is present it
leaves every stored epoch and the stored pointer untouched and only adopts the
pointer value in memory; consequently a second initialize leaves the stored
state of the first unchanged. -/
theorem init_service_spec (s : PolService) (t t2 : Int) (ht : t.natAbs < U64MOD) :
    (s.storage.get_current_epoch = none →
      (s.init_service t).storage.get_epoch 0 = .ok (some ⟨0, t, [], []⟩) ∧
      (s.init_service t).storage.get_current_epoch = some 0 ∧
      (s.init_service t).current_epoch = 0) ∧
    (∀ p, s.storage.get_current_epoch = some p →
      (s.init_service t).storage = s.storage ∧ (s.init_service t).current_epoch = p) ∧
    ((s.init_service t).init_service t2).storage = (s.init_service t).storage := by
  have hwf0 : WFEpoch (⟨0, t, [], []⟩ : EpochState) := by
    refine ⟨?_, ht, ?_, ?_, ?_, ?_⟩
    · show (0 : Nat) < U64MOD
      unfold U64MOD
      omega
    · show (0 : Nat) < U64MOD
      unfold U64MOD
      omega
    · show (0 : Nat) < U64MOD
      unfold U64MOD
      omega
    · intro p hp; simp at hp
    · intro b hb; simp at hb
  rcases hptr : s.storage.currentPtr with _ | p
  · refine ⟨?_, ?_, ?_⟩
    · intro _
      refine ⟨?_, ?_, ?_⟩
      · show ((s.init_service t).storage).get_epoch 0 = .ok (some ⟨0, t, [], []⟩)
        simp only [PolService.init_service, Storage.get_current_epoch, hptr]
        show ((s.storage.save_epoch ⟨0, t, [], []⟩).save_current_epoch 0).get_epoch 0 =
          .ok (some ⟨0, t, [], []⟩)
        have : ((s.storage.save_epoch ⟨0, t, [], []⟩).save_current_epoch 0).get_epoch 0 =
            (s.storage.save_epoch ⟨0, t, [], []⟩).get_epoch 0 := rfl
        rw [this]
        exact get_epoch_save_epoch s.storage _ hwf0
      · simp only [PolService.init_service, Storage.get_current_epoch, hptr]
        rfl
      · simp only [PolService.init_service, Storage.get_current_epoch, hptr]
    · intro p hp
      rw [Storage.get_current_epoch, hptr] at hp
      cases hp
    · simp only [PolService.init_service, Storage.get_current_epoch, hptr]
      rfl
  · refine ⟨?_, ?_, ?_⟩
    · intro hnone
      rw [Storage.get_current_epoch, hptr] at hnone
      cases hnone
    · intro q hq
      rw [Storage.get_current_epoch, hptr] at hq
      injection hq with hq
      subst hq
      simp [PolService.init_service, Storage.get_current_epoch, hptr]
    · simp only [PolService.init_service, Storage.get_current_epoch, hptr]

/-- C9 witness: over an empty storage, initialize persists epoch 0 and the
pointer, and a second initialize leaves the stored state unchanged. -/
theorem init_service_spec_witness :
    ((PolService.fresh 4 100).storage.get_current_epoch = none →
      (((PolService.fresh 4 100).init_service 6).storage.get_epoch 0 =
        .ok (some ⟨0, 6, [], []⟩)) ∧
      ((PolService.fresh 4 100).init_service 6).storage.get_current_epoch = some 0 ∧
      ((PolService.fresh 4 100).init_service 6).current_epoch = 0) ∧
    (∀ p, (PolService.fresh 4 100).storage.get_current_epoch = some p →
      ((PolService.fresh 4 100).init_service 6).storage = (PolService.fresh 4 100).storage ∧
      ((PolService.fresh 4 100).init_service 6).current_epoch = p) ∧
    (((PolService.fresh 4 100).init_service 6).init_service 9).storage =
      ((PolService.fresh 4 100).init_service 6).storage :=
  init_service_spec (PolService.fresh 4 100) 6 9 (by decide)

/-- C3 counterexample: on a freshly constructed service over empty storage, with
initialize never called, rotate_epoch does not fail with an epoch-not-found
error: it succeeds and returns epoch id 1 (it never reads the old epoch). -/
theorem rotate_before_init_succeeds :
    ((PolService.fresh 4 100).rotate_epoch 5).map (fun x => x.1) = .ok 1 := by
  decide

/-- C3 amended: before initialize, record_mint_proof and record_burn_proof fail
with the epoch-not-found error (InvalidEpoch, message Epoch 0 not found), but
rotate_epoch succeeds and returns epoch id 1, persisting a fresh empty epoch 1. -/
theorem ops_before_init (maxH : Nat) (dur : Int) (pr sec : String) (a : Nat)
    (t : Int) (ht : t.natAbs < U64MOD) :
    (PolService.fresh maxH dur).record_mint_proof pr a t =
      .error (.InvalidEpoch ("Epoch 0 not found")) ∧
    (PolService.fresh maxH dur).record_burn_proof sec a t =
      .error (.InvalidEpoch ("Epoch 0 not found")) ∧
    ((PolService.fresh maxH dur).rotate_epoch t).map (fun x => x.1) = .ok 1 := by
  have hget : (PolService.fresh maxH dur).storage.get_epoch
      (PolService.fresh maxH dur).current_epoch = .ok none := rfl
  have hs : ("Epoch " ++ toString (PolService.fresh maxH dur).current_epoch ++
      " not found") = "Epoch 0 not found" := by
    show ("Epoch " ++ toString (0 : Nat) ++ " not found") = "Epoch 0 not found"
    decide
  refine ⟨?_, ?_, ?_⟩
  · simp only [PolService.record_mint_proof, hget, bind, Except.bind, hs]
  · simp only [PolService.record_burn_proof, hget, bind, Except.bind, hs]
  · have h := rotate_spec (PolService.fresh maxH dur) [] none t rfl
      (by intro e he; simp at he) (List.Pairwise.nil)
      (by intro e he; simp at he)
      (by
        show (0 : Nat) + 1 < U64MOD
        unfold U64MOD
        omega) ht
    rw [h]
    rfl

/-- C3 witness: the amended behaviour at concrete inputs. -/
theorem ops_before_init_witness :
    (PolService.fresh 4 100).record_mint_proof "p" 9 5 =
      .error (.InvalidEpoch ("Epoch 0 not found")) ∧
    (PolService.fresh 4 100).record_burn_proof "s" 9 5 =
      .error (.InvalidEpoch ("Epoch 0 not found")) ∧
    ((PolService.fresh 4 100).rotate_epoch 5).map (fun x => x.1) = .ok 1 :=
  ops_before_init 4 100 "p" "s" 9 5 (by decide)

/-- True exactly on the EpochNotFound variant of PolError. -/
def isEpochNotFoundErr : PolError → Bool
  | .EpochNotFound _ => true
  | _ => false

/-- C4 counterexample: querying a missing epoch makes verify_burn_proof fail with
the InvalidEpoch variant (message Epoch 0 not found), not with the EpochNotFound
variant of PolError, which the code never constructs. -/
theorem verify_missing_epoch_error_kind :
    (PolService.fresh 4 100).verify_burn_proof 0 "s1" =
      .error (.InvalidEpoch ("Epoch 0 not found")) ∧
    isEpochNotFoundErr (.InvalidEpoch ("Epoch 0 not found")) = false := by
  exact ⟨rfl, rfl⟩

/-- C4 amended: verify_burn_proof epoch_id secret returns Ok true exactly when the
epoch record exists in storage and holds a burn event with that secret; when the
record is absent the call fails with the InvalidEpoch error (message Epoch id
not found).  The same holds for verify_mint_proof with membership decided by the
proof value. -/
theorem verify_membership_spec (s : PolService) (id : Nat) (sec pr : String) :
    (s.verify_burn_proof id sec = .ok true ↔
      ∃ e, s.storage.get_epoch id = .ok (some e) ∧ ∃ b ∈ e.burn_proofs, b.secret = sec) ∧
    (s.storage.get_epoch id = .ok none →
      s.verify_burn_proof id sec =
        .error (.InvalidEpoch ("Epoch " ++ toString id ++ " not found"))) ∧
    (s.verify_mint_proof id pr = .ok true ↔
      ∃ e, s.storage.get_epoch id = .ok (some e) ∧ ∃ p ∈ e.mint_proofs, p.proof = pr) ∧
    (s.storage.get_epoch id = .ok none →
      s.verify_mint_proof id pr =
        .error (.InvalidEpoch ("Epoch " ++ toString id ++ " not found"))) := by
  rcases hget : s.storage.get_epoch id with err | eo
  · simp only [PolService.verify_burn_proof, PolService.verify_mint_proof, hget, bind,
      Except.bind]
    refine ⟨?_, ?_, ?_, ?_⟩ <;> simp
  · cases eo with
    | none =>
        simp only [PolService.verify_burn_proof, PolService.verify_mint_proof, hget, bind,
          Except.bind]
        refine ⟨?_, ?_, ?_, ?_⟩ <;> simp
    | some e =>
        simp only [PolService.verify_burn_proof, PolService.verify_mint_proof, hget, bind,
          Except.bind]
        refine ⟨?_, ?_, ?_, ?_⟩
        · simp only [Except.ok.injEq, Option.some.injEq, List.any_eq_true, beq_iff_eq]
          constructor
          · intro hany
            exact ⟨e, rfl, hany⟩
          · rintro ⟨e2, he2, b, hb, hsec⟩
            subst he2
            exact ⟨b, hb, hsec⟩
        · intro hcontra
          cases hcontra
        · simp only [Except.ok.injEq, Option.some.injEq, List.any_eq_true, beq_iff_eq]
          constructor
          · intro hany
            exact ⟨e, rfl, hany⟩
          · rintro ⟨e2, he2, p, hp, hpr⟩
            subst he2
            exact ⟨p, hp, hpr⟩
        · intro hcontra
          cases hcontra

/-- C4 witness: at a concrete missing epoch the amended error behaviour holds. -/
theorem verify_membership_spec_witness :
    (PolService.fresh 4 100).verify_mint_proof 2 "p" =
      .error (.InvalidEpoch ("Epoch " ++ toString 2 ++ " not found")) :=
  (verify_membership_spec (PolService.fresh 4 100) 2 "s" "p").2.2.2 (by decide)

/-- C2 counterexample: with max_epoch_history = 0, a rotate_epoch from the
freshly initialized service succeeds but the retention loop then deletes every
epoch, including the just-created current epoch 1: afterwards the current-epoch
pointer (in memory and in storage) is 1 while storage holds no epoch record at
all, so the pointer references a missing record. -/
theorem rotate_zero_history_dangling_pointer :
    ((PolService.fresh 0 100).init_service 0).rotate_epoch 5 =
      .ok (1, ⟨⟨[], some 1⟩, 1, 100, 0⟩) ∧
    (Storage.mk [] (some 1)).get_epoch 1 = .ok none := by
  exact ⟨by decide, rfl⟩

/-- C2 amended: for max_epoch_history at least 1, rotate_epoch from any
well-formed service state (the stored epochs well-formed, sorted, with ids not
above the current epoch, as every state the service builds is) never leaves the
system without a valid current epoch: afterwards the pointer is current + 1 and
that epoch record exists in storage. -/
theorem rotate_epoch_keeps_current (s : PolService) (es : List EpochState)
    (ptr : Option Nat) (t : Int)
    (hst : s.storage = mkStorage es ptr) (hwf : ∀ e ∈ es, WFEpoch e)
    (hsorted : es.Pairwise (fun a b => a.epoch_id < b.epoch_id))
    (hids : ∀ e ∈ es, e.epoch_id ≤ s.current_epoch)
    (hcur : s.current_epoch + 1 < U64MOD) (ht : t.natAbs < U64MOD)
    (hmax : 1 ≤ s.max_epoch_history) :
    ∃ s2, s.rotate_epoch t = .ok (s.current_epoch + 1, s2) ∧
      s2.current_epoch = s.current_epoch + 1 ∧
      s2.storage.get_current_epoch = some (s.current_epoch + 1) ∧
      s2.storage.get_epoch (s.current_epoch + 1) =
        .ok (some ⟨s.current_epoch + 1, t, [], []⟩) := by
  have hrot := rotate_spec s es ptr t hst hwf hsorted hids hcur ht
  refine ⟨_, hrot, rfl, rfl, ?_⟩
  have hwfnew : WFEpoch (⟨s.current_epoch + 1, t, [], []⟩ : EpochState) := by
    refine ⟨hcur, ht, ?_, ?_, ?_, ?_⟩
    · show (0 : Nat) < U64MOD
      unfold U64MOD
      omega
    · show (0 : Nat) < U64MOD
      unfold U64MOD
      omega
    · intro p hp; simp at hp
    · intro b hb; simp at hb
  have hk : es.length + 1 - s.max_epoch_history ≤ es.length := by omega
  have hdropsplit : (es ++ [(⟨s.current_epoch + 1, t, [], []⟩ : EpochState)]).drop
      (es.length + 1 - s.max_epoch_history) =
      es.drop (es.length + 1 - s.max_epoch_history) ++
        [(⟨s.current_epoch + 1, t, [], []⟩ : EpochState)] :=
    List.drop_append_of_le_length hk
  show (mkStorage _ (some (s.current_epoch + 1))).get_epoch (s.current_epoch + 1) =
    .ok (some ⟨s.current_epoch + 1, t, [], []⟩)
  rw [hdropsplit]
  have hwfretained : ∀ e ∈ es.drop (es.length + 1 - s.max_epoch_history) ++
      [(⟨s.current_epoch + 1, t, [], []⟩ : EpochState)], WFEpoch e := by
    intro x hx
    rcases List.mem_append.mp hx with hx1 | hx2
    · exact hwf x (List.mem_of_mem_drop hx1)
    · simp only [List.mem_singleton] at hx2
      subst hx2
      exact hwfnew
  rw [get_epoch_mkStorage _ _ _ hwfretained]
  rw [find?_append_none _ _ _ (by
    intro x hx
    have hxs := List.mem_of_mem_drop hx
    have := hids x hxs
    simp only [beq_eq_false_iff_ne, ne_eq]
    omega)]
  simp [List.find?]

/-- C2 witness: the amended statement at a concrete well-formed state. -/
theorem rotate_epoch_keeps_current_witness :
    ∃ s2, ((PolService.fresh 1 100).init_service 0).rotate_epoch 7 = .ok (1, s2) ∧
      s2.current_epoch = 1 ∧ s2.storage.get_current_epoch = some 1 ∧
      s2.storage.get_epoch 1 = .ok (some ⟨1, 7, [], []⟩) :=
  rotate_epoch_keeps_current ((PolService.fresh 1 100).init_service 0)
    [⟨0, 0, [], []⟩] (some 0) 7 rfl (by decide) (by decide) (by decide) (by decide)
    (by decide) (by decide)

/-- C5: after every successful rotate_epoch from a well-formed service state, at
most max_epoch_history epoch records remain, and the retained key list is the
tail that a drop of the oldest entries leaves of the ascending pre-eviction id
list (the new id current + 1 at its end), i.e. the max_epoch_history largest ids
present before eviction. -/
theorem rotate_epoch_retention (s : PolService) (es : List EpochState)
    (ptr : Option Nat) (t : Int)
    (hst : s.storage = mkStorage es ptr) (hwf : ∀ e ∈ es, WFEpoch e)
    (hsorted : es.Pairwise (fun a b => a.epoch_id < b.epoch_id))
    (hids : ∀ e ∈ es, e.epoch_id ≤ s.current_epoch)
    (hcur : s.current_epoch + 1 < U64MOD) (ht : t.natAbs < U64MOD) :
    ∃ s2, s.rotate_epoch t = .ok (s.current_epoch + 1, s2) ∧
      s2.storage.epochs.length ≤ s.max_epoch_history ∧
      s2.storage.epochs.map Prod.fst =
        ((es ++ [(⟨s.current_epoch + 1, t, [], []⟩ : EpochState)]).map
          (fun e => e.epoch_id)).drop (es.length + 1 - s.max_epoch_history) ∧
      ((es ++ [(⟨s.current_epoch + 1, t, [], []⟩ : EpochState)]).map
        (fun e => e.epoch_id)).Pairwise (fun a b => a < b) := by
  have hrot := rotate_spec s es ptr t hst hwf hsorted hids hcur ht
  refine ⟨_, hrot, ?_, ?_, ?_⟩
  · show ((((es ++ [(⟨s.current_epoch + 1, t, [], []⟩ : EpochState)]).drop
        (es.length + 1 - s.max_epoch_history)).map
        (fun e => (e.epoch_id, encEpoch e))).length) ≤ s.max_epoch_history
    rw [List.length_map, List.length_drop]
    simp only [List.length_append, List.length_singleton]
    omega
  · show (((es ++ [(⟨s.current_epoch + 1, t, [], []⟩ : EpochState)]).drop
        (es.length + 1 - s.max_epoch_history)).map
        (fun e => (e.epoch_id, encEpoch e))).map Prod.fst = _
    rw [List.map_map, ← List.map_drop]
    rfl
  · apply (List.pairwise_map).mpr
    rw [List.pairwise_append]
    refine ⟨hsorted, List.pairwise_singleton _ _, ?_⟩
    intro a ha b hb
    simp only [List.mem_singleton] at hb
    subst hb
    show a.epoch_id < s.current_epoch + 1
    have := hids a ha
    omega

/-- C5 witness: rotating a two-epoch store with max_epoch_history = 2 keeps
exactly the two largest ids. -/
theorem rotate_epoch_retention_witness :
    ∃ s2, (PolService.mk (mkStorage [⟨0, 0, [], []⟩, ⟨1, 4, [], []⟩] (some 1)) 1 100 2
        ).rotate_epoch 9 = .ok (2, s2) ∧
      s2.storage.epochs.length ≤ 2 ∧
      s2.storage.epochs.map Prod.fst =
        ((([⟨0, 0, [], []⟩, ⟨1, 4, [], []⟩] : List EpochState) ++
          [(⟨2, 9, [], []⟩ : EpochState)]).map (fun e => e.epoch_id)).drop 1 ∧
      ((([⟨0, 0, [], []⟩, ⟨1, 4, [], []⟩] : List EpochState) ++
        [(⟨2, 9, [], []⟩ : EpochState)]).map (fun e => e.epoch_id)).Pairwise
        (fun a b => a < b) :=
  rotate_epoch_retention
    (PolService.mk (mkStorage [⟨0, 0, [], []⟩, ⟨1, 4, [], []⟩] (some 1)) 1 100 2)
    [⟨0, 0, [], []⟩, ⟨1, 4, [], []⟩] (some 1) 9 rfl (by decide) (by decide) (by decide)
    (by decide) (by decide)

/-- C6 counterexample: generate_report keeps the order in which the storage layer
enumerated the epoch records (it performs no sort of its own): over a storage
whose enumeration yields epoch 1 before epoch 0, the report lists epoch ids
[1, 0], which is not ascending.  The ascending order of real reports is
inherited from the key-ordered iteration of the redb epochs table, not produced
independently of it. -/
theorem report_order_follows_enumeration :
    ((PolService.mk
        (Storage.mk [(1, encEpoch ⟨1, 0, [], []⟩), (0, encEpoch ⟨0, 0, [], []⟩)] (some 1))
        1 100 4).generate_report 0).map
      (fun rep => rep.epoch_reports.map (fun r => r.epoch_id)) = .ok [1, 0] ∧
    ¬ (([1, 0] : List Nat).Pairwise (fun a b => a < b)) := by
  exact ⟨by decide, by decide⟩

/-- C6 amended: for every well-formed service state, the epoch_reports list of
generate_report is sorted ascending by epoch_id; the order is exactly the
storage enumeration order, which the redb epochs table keeps ascending by key. -/
theorem generate_report_sorted (s : PolService) (es : List EpochState)
    (ptr : Option Nat) (t : Int)
    (hst : s.storage = mkStorage es ptr) (hwf : ∀ e ∈ es, WFEpoch e)
    (hsorted : es.Pairwise (fun a b => a.epoch_id < b.epoch_id)) :
    ∃ rep, s.generate_report t = .ok rep ∧
      rep.epoch_reports.map (fun r => r.epoch_id) = es.map (fun e => e.epoch_id) ∧
      (rep.epoch_reports.map (fun r => r.epoch_id)).Pairwise (fun a b => a < b) := by
  refine ⟨reportFromEpochs es s.current_epoch s.epoch_duration t, ?_, ?_, ?_⟩
  · simp only [PolService.generate_report, hst, list_epochs_mkStorage _ _ hwf, bind,
      Except.bind]
  · show ((buildReports s.current_epoch s.epoch_duration es 0).1.map
      (fun r => r.epoch_id)) = es.map (fun e => e.epoch_id)
    exact buildReports_ids _ _ _ 0
  · show ((buildReports s.current_epoch s.epoch_duration es 0).1.map
      (fun r => r.epoch_id)).Pairwise (fun a b => a < b)
    rw [buildReports_ids]
    exact (List.pairwise_map).mpr hsorted

/-- C6 witness: the amended statement at a concrete two-epoch state. -/
theorem generate_report_sorted_witness :
    ∃ rep, (PolService.mk (mkStorage [⟨0, 2, [], []⟩, ⟨1, 4, [], []⟩] (some 1)) 1 100 4
        ).generate_report 9 = .ok rep ∧
      rep.epoch_reports.map (fun r => r.epoch_id) =
        (([⟨0, 2, [], []⟩, ⟨1, 4, [], []⟩] : List EpochState)).map (fun e => e.epoch_id) ∧
      (rep.epoch_reports.map (fun r => r.epoch_id)).Pairwise (fun a b => a < b) :=
  generate_report_sorted
    (PolService.mk (mkStorage [⟨0, 2, [], []⟩, ⟨1, 4, [], []⟩] (some 1)) 1 100 4)
    [⟨0, 2, [], []⟩, ⟨1, 4, [], []⟩] (some 1) 9 rfl (by decide) (by decide)

/-- C7 counterexample: recording a mint of 2^63 sat in each of two epochs and
generating the report succeeds with total_outstanding_balance 0: the grand total
is the plain u64 sum of the per-epoch balances (9223372036854775808 each), which
wraps modulo 2^64 in a release build instead of failing loudly. -/
theorem generate_report_total_wraps :
    (do
      let s1 ← ((PolService.fresh 4 100).init_service 0).record_mint_proof "a"
        9223372036854775808 0
      let rs2 ← s1.rotate_epoch 1
      let s3 ← rs2.2.record_mint_proof "b" 9223372036854775808 1
      let rep ← s3.generate_report 2
      pure (rep.total_outstanding_balance,
        rep.epoch_reports.map (fun r => r.outstanding_balance)) :
      Except PolError (Nat × List Nat)) =
      .ok (0, [9223372036854775808, 9223372036854775808]) := by
  decide

/-- C7 amended: for every well-formed service state, generate_report returns Ok
(it never fails on arithmetic): each per-epoch outstanding balance is the
saturating difference of the epoch's u64 mint and burn sums, and
total_outstanding_balance is the plain u64 (modulo 2^64, wrapping) sum of the
per-epoch balances rather than an overflow-checked one. -/
theorem generate_report_numeric (s : PolService) (es : List EpochState)
    (ptr : Option Nat) (t : Int)
    (hst : s.storage = mkStorage es ptr) (hwf : ∀ e ∈ es, WFEpoch e) :
    ∃ rep, s.generate_report t = .ok rep ∧
      rep.total_outstanding_balance =
        (rep.epoch_reports.map (fun r => r.outstanding_balance)).foldl wadd 0 ∧
      ∀ r ∈ rep.epoch_reports, r.outstanding_balance =
        sumAmounts64 (r.mint_proofs.map (fun p => p.amount)) -
          sumAmounts64 (r.burn_proofs.map (fun b => b.amount)) := by
  refine ⟨reportFromEpochs es s.current_epoch s.epoch_duration t, ?_, ?_, ?_⟩
  · simp only [PolService.generate_report, hst, list_epochs_mkStorage _ _ hwf, bind,
      Except.bind]
  · show (buildReports s.current_epoch s.epoch_duration es 0).2 =
      ((buildReports s.current_epoch s.epoch_duration es 0).1.map
        (fun r => r.outstanding_balance)).foldl wadd 0
    exact buildReports_total _ _ _ 0
  · intro r hr
    exact buildReports_outstanding _ _ _ 0 r hr

/-- C7 witness: the amended statement at a concrete state with a saturated epoch
(mints 1000, burns 4000). -/
theorem generate_report_numeric_witness :
    ∃ rep, (PolService.mk
        (mkStorage [⟨0, 2, [⟨"p", 1000, 3⟩], [⟨"s", 4000, 4⟩]⟩] (some 0)) 0 100 4
        ).generate_report 9 = .ok rep ∧
      rep.total_outstanding_balance =
        (rep.epoch_reports.map (fun r => r.outstanding_balance)).foldl wadd 0 ∧
      ∀ r ∈ rep.epoch_reports, r.outstanding_balance =
        sumAmounts64 (r.mint_proofs.map (fun p => p.amount)) -
          sumAmounts64 (r.burn_proofs.map (fun b => b.amount)) :=
  generate_report_numeric
    (PolService.mk (mkStorage [⟨0, 2, [⟨"p", 1000, 3⟩], [⟨"s", 4000, 4⟩]⟩] (some 0)) 0 100 4)
    [⟨0, 2, [⟨"p", 1000, 3⟩], [⟨"s", 4000, 4⟩]⟩] (some 0) 9 rfl (by decide)

theorem WFEpoch_applyOpsEpoch (ops : List RecordOp) : ∀ e : EpochState, WFEpoch e →
    (∀ op ∈ ops, WFOp op) →
    e.mint_proofs.length + ops.length < U64MOD →
    e.burn_proofs.length + ops.length < U64MOD →
    WFEpoch (applyOpsEpoch e ops) := by
  induction ops with
  | nil => intro e hwf _ _ _; exact hwf
  | cons op ops ih =>
      intro e hwf hops hm hb
      have hophd : WFOp op := hops op (List.mem_cons_self op ops)
      have hoptl : ∀ x ∈ ops, WFOp x := fun x hx => hops x (List.mem_cons_of_mem op hx)
      cases op with
      | mint pr a t =>
          simp only [applyOpsEpoch]
          refine ih _ (WFEpoch_insert_mint e ⟨pr, a, t⟩ hwf hophd ?_) hoptl ?_ ?_
          · simp only [List.length_cons] at hm
            omega
          · show (insertEvent e.mint_proofs (⟨pr, a, t⟩ : MintProof)).length +
              ops.length < U64MOD
            have := length_insertEvent e.mint_proofs (⟨pr, a, t⟩ : MintProof)
            simp only [List.length_cons] at hm
            omega
          · show e.burn_proofs.length + ops.length < U64MOD
            simp only [List.length_cons] at hb
            omega
      | burn sec a t =>
          simp only [applyOpsEpoch]
          refine ih _ (WFEpoch_insert_burn e ⟨sec, a, t⟩ hwf hophd ?_) hoptl ?_ ?_
          · simp only [List.length_cons] at hb
            omega
          · show e.mint_proofs.length + ops.length < U64MOD
            simp only [List.length_cons] at hm
            omega
          · show (insertEvent e.burn_proofs (⟨sec, a, t⟩ : BurnProof)).length +
              ops.length < U64MOD
            have := length_insertEvent e.burn_proofs (⟨sec, a, t⟩ : BurnProof)
            simp only [List.length_cons] at hb
            omega

/-- Running a record sequence on a freshly initialized service succeeds and the
report holds exactly one epoch entry, epoch 0, with the dedup balance. -/
theorem applyOps_report (maxH : Nat) (dur t0 t1 : Int) (ops : List RecordOp)
    (hops : ∀ op ∈ ops, WFOp op) (hlen : ops.length < U64MOD)
    (ht0 : t0.natAbs < U64MOD) :
    ∃ s1, applyOps ((PolService.fresh maxH dur).init_service t0) ops = .ok s1 ∧
    ∃ rep, s1.generate_report t1 = .ok rep ∧
      rep.epoch_reports.map (fun r => (r.epoch_id, r.outstanding_balance)) =
        [(0, sumAmounts64 ((dedupKeep (mintEvents ops)).map (fun p => p.amount)) -
              sumAmounts64 ((dedupKeep (burnEvents ops)).map (fun b => b.amount)))] := by
  have hwf0 : WFEpoch (⟨0, t0, [], []⟩ : EpochState) := by
    refine ⟨?_, ht0, ?_, ?_, ?_, ?_⟩
    · show (0 : Nat) < U64MOD
      unfold U64MOD
      omega
    · show (0 : Nat) < U64MOD
      unfold U64MOD
      omega
    · show (0 : Nat) < U64MOD
      unfold U64MOD
      omega
    · intro p hp; simp at hp
    · intro b hb; simp at hb
  have hm0 : (⟨0, t0, [], []⟩ : EpochState).mint_proofs.length + ops.length < U64MOD := by
    show ([] : List MintProof).length + ops.length < U64MOD
    simp only [List.length_nil]
    omega
  have hb0 : (⟨0, t0, [], []⟩ : EpochState).burn_proofs.length + ops.length < U64MOD := by
    show ([] : List BurnProof).length + ops.length < U64MOD
    simp only [List.length_nil]
    omega
  have happ := applyOps_single ops ((PolService.fresh maxH dur).init_service t0)
    ⟨0, t0, [], []⟩ (some 0) rfl rfl hwf0 hops hm0 hb0
  have hwfefin : WFEpoch (applyOpsEpoch ⟨0, t0, [], []⟩ ops) :=
    WFEpoch_applyOpsEpoch ops ⟨0, t0, [], []⟩ hwf0 hops hm0 hb0
  rw [happ]
  refine ⟨_, rfl, ?_⟩
  have hs1 : ({ (PolService.fresh maxH dur).init_service t0 with
      storage := mkStorage [applyOpsEpoch ⟨0, t0, [], []⟩ ops] (some 0) } : PolService) =
      PolService.mk (mkStorage [applyOpsEpoch ⟨0, t0, [], []⟩ ops] (some 0)) 0 dur maxH :=
    rfl
  rw [hs1]
  have hlist : (mkStorage [applyOpsEpoch ⟨0, t0, [], []⟩ ops] (some 0)).list_epochs =
      .ok [applyOpsEpoch ⟨0, t0, [], []⟩ ops] :=
    list_epochs_mkStorage _ _ (by
      intro x hx
      simp only [List.mem_singleton] at hx
      subst hx
      exact hwfefin)
  refine ⟨reportFromEpochs [applyOpsEpoch ⟨0, t0, [], []⟩ ops] 0 dur t1, ?_, ?_⟩
  · simp only [PolService.generate_report, hlist, bind, Except.bind]
  · obtain ⟨hid, hstart, hmint, hburn⟩ := applyOpsEpoch_fields ops ⟨0, t0, [], []⟩
    simp only [reportFromEpochs, buildReports, List.map_cons, List.map_nil,
      epochOutstanding, hid, hmint, hburn]
    rfl

theorem dedup_mint_sum_perm (ops ops2 : List RecordOp) (hperm : ops2.Perm ops) :
    sumAmounts64 ((dedupKeep (mintEvents ops2)).map (fun p => p.amount)) =
      sumAmounts64 ((dedupKeep (mintEvents ops)).map (fun p => p.amount)) :=
  sumAmounts64_perm _ _ ((dedupKeep_perm _ _ (hperm.filterMap opMintEvent)).map _)

theorem dedup_burn_sum_perm (ops ops2 : List RecordOp) (hperm : ops2.Perm ops) :
    sumAmounts64 ((dedupKeep (burnEvents ops2)).map (fun b => b.amount)) =
      sumAmounts64 ((dedupKeep (burnEvents ops)).map (fun b => b.amount)) :=
  sumAmounts64_perm _ _ ((dedupKeep_perm _ _ (hperm.filterMap opBurnEvent)).map _)

/-- C1 counterexample: two record_mint_proof calls that produce the identical
event (same proof, amount 5, same timestamp) are absorbed into one set element,
so the epoch balance is 5, not max(0, 5 + 5 - 0) = 10 as the claim computes from
the sum over the recorded calls. -/
theorem duplicate_record_counted_once :
    (do
      let s1 ← applyOps ((PolService.fresh 4 100).init_service 0)
        [RecordOp.mint "p" 5 0, RecordOp.mint "p" 5 0]
      let rep ← s1.generate_report 1
      pure (rep.epoch_reports.map (fun r => r.outstanding_balance)) :
      Except PolError (List Nat)) = .ok [5] ∧
    ((.ok [5] : Except PolError (List Nat)) ≠ .ok [10]) := by
  exact ⟨by decide, by decide⟩

/-- C1 amended: for every sequence of record calls into the epoch of a freshly
initialized service, the epoch's report entry has outstanding_balance equal to
the saturating difference of the u64 sums of the amounts of the distinct
recorded mint events and of the distinct recorded burn events (identical events
counted once, sums reduced modulo 2^64), and the balance is the same for every
interleaving (permutation) of the calls. -/
theorem outstanding_balance_formula (maxH : Nat) (dur t0 t1 : Int)
    (ops ops2 : List RecordOp)
    (hops : ∀ op ∈ ops, WFOp op) (hlen : ops.length < U64MOD)
    (ht0 : t0.natAbs < U64MOD) (hperm : ops2.Perm ops) :
    ∃ s1, applyOps ((PolService.fresh maxH dur).init_service t0) ops = .ok s1 ∧
    ∃ rep, s1.generate_report t1 = .ok rep ∧
      rep.epoch_reports.map (fun r => (r.epoch_id, r.outstanding_balance)) =
        [(0, sumAmounts64 ((dedupKeep (mintEvents ops)).map (fun p => p.amount)) -
              sumAmounts64 ((dedupKeep (burnEvents ops)).map (fun b => b.amount)))] ∧
    ∃ s2, applyOps ((PolService.fresh maxH dur).init_service t0) ops2 = .ok s2 ∧
    ∃ rep2, s2.generate_report t1 = .ok rep2 ∧
      rep2.epoch_reports.map (fun r => (r.epoch_id, r.outstanding_balance)) =
        rep.epoch_reports.map (fun r => (r.epoch_id, r.outstanding_balance)) := by
  obtain ⟨s1, h1, rep, hrep, hpairs⟩ := applyOps_report maxH dur t0 t1 ops hops hlen ht0
  have hops2 : ∀ op ∈ ops2, WFOp op := fun op hop => hops op (hperm.mem_iff.1 hop)
  have hlen2 : ops2.length < U64MOD := by
    rw [hperm.length_eq]
    exact hlen
  obtain ⟨s2, h2, rep2, hrep2, hpairs2⟩ :=
    applyOps_report maxH dur t0 t1 ops2 hops2 hlen2 ht0
  refine ⟨s1, h1, rep, hrep, hpairs, s2, h2, rep2, hrep2, ?_⟩
  rw [hpairs, hpairs2, dedup_mint_sum_perm ops ops2 hperm,
    dedup_burn_sum_perm ops ops2 hperm]

/-- C1 witness: a mint of 5 and a burn of 3, in both orders, give balance 2 in
the single epoch-0 report entry. -/
theorem outstanding_balance_formula_witness :
    ∃ s1, applyOps ((PolService.fresh 4 100).init_service 0)
        [RecordOp.mint "a" 5 0, RecordOp.burn "b" 3 1] = .ok s1 ∧
    ∃ rep, s1.generate_report 9 = .ok rep ∧
      rep.epoch_reports.map (fun r => (r.epoch_id, r.outstanding_balance)) = [(0, 2)] ∧
    ∃ s2, applyOps ((PolService.fresh 4 100).init_service 0)
        [RecordOp.burn "b" 3 1, RecordOp.mint "a" 5 0] = .ok s2 ∧
    ∃ rep2, s2.generate_report 9 = .ok rep2 ∧
      rep2.epoch_reports.map (fun r => (r.epoch_id, r.outstanding_balance)) =
        rep.epoch_reports.map (fun r => (r.epoch_id, r.outstanding_balance)) :=
  outstanding_balance_formula 4 100 0 9 [RecordOp.mint "a" 5 0, RecordOp.burn "b" 3 1]
    [RecordOp.burn "b" 3 1, RecordOp.mint "a" 5 0] (by decide) (by decide) (by decide)
    (by decide)

theorem insertEvent_nil [DecidableEq α] (x : α) : insertEvent [] x = [x] := by
  simp [insertEvent]

/-- C10: deduplication at the public interface keys on the full event value,
timestamp included: two record_burn_proof calls with the same secret and amount
produce two distinct events in the current epoch's burn set whenever their
timestamps differ, and likewise for record_mint_proof; only a second event
identical in every field is absorbed as a no-op (the state after the second call
equals the state after the first). -/
theorem record_dedup_full_value (maxH : Nat) (dur t0 : Int) (sec pr : String)
    (a : Nat) (t1 t2 : Int) (ht0 : t0.natAbs < U64MOD) (hsec : WFString sec)
    (hpr : WFString pr) (ha : a < U64MOD) (ht1 : t1.natAbs < U64MOD)
    (ht2 : t2.natAbs < U64MOD) :
    (∃ s1, ((PolService.fresh maxH dur).init_service t0).record_burn_proof sec a t1 =
        .ok s1 ∧
      ∃ s2, s1.record_burn_proof sec a t2 = .ok s2 ∧
        (t1 ≠ t2 → s2.storage.get_epoch 0 =
          .ok (some ⟨0, t0, [], [⟨sec, a, t1⟩, ⟨sec, a, t2⟩]⟩)) ∧
        (t1 = t2 → s2 = s1)) ∧
    (∃ s3, ((PolService.fresh maxH dur).init_service t0).record_mint_proof pr a t1 =
        .ok s3 ∧
      ∃ s4, s3.record_mint_proof pr a t2 = .ok s4 ∧
        (t1 ≠ t2 → s4.storage.get_epoch 0 =
          .ok (some ⟨0, t0, [⟨pr, a, t1⟩, ⟨pr, a, t2⟩], []⟩)) ∧
        (t1 = t2 → s4 = s3)) := by
  have hwf0 : WFEpoch (⟨0, t0, [], []⟩ : EpochState) := by
    refine ⟨?_, ht0, ?_, ?_, ?_, ?_⟩
    · show (0 : Nat) < U64MOD
      unfold U64MOD
      omega
    · show (0 : Nat) < U64MOD
      unfold U64MOD
      omega
    · show (0 : Nat) < U64MOD
      unfold U64MOD
      omega
    · intro p hp; simp at hp
    · intro b hb; simp at hb
  constructor
  · -- burn side
    have h1 := record_burn_single ((PolService.fresh maxH dur).init_service t0)
      ⟨0, t0, [], []⟩ (some 0) rfl rfl hwf0 sec a t1
    have h1eq : ((PolService.fresh maxH dur).init_service t0).record_burn_proof sec a t1 =
        .ok (PolService.mk (mkStorage [⟨0, t0, [], [⟨sec, a, t1⟩]⟩] (some 0)) 0 dur maxH) := by
      rw [h1]
      rfl
    have hwf1 : WFEpoch (⟨0, t0, [], [⟨sec, a, t1⟩]⟩ : EpochState) := by
      refine ⟨?_, ht0, ?_, ?_, ?_, ?_⟩
      · show (0 : Nat) < U64MOD
        unfold U64MOD
        omega
      · show (0 : Nat) < U64MOD
        unfold U64MOD
        omega
      · show (1 : Nat) < U64MOD
        unfold U64MOD
        omega
      · intro p hp; simp at hp
      · intro b hb
        simp only [List.mem_singleton] at hb
        subst hb
        exact ⟨hsec, ha, ht1⟩
    have h2 := record_burn_single
      (PolService.mk (mkStorage [⟨0, t0, [], [⟨sec, a, t1⟩]⟩] (some 0)) 0 dur maxH)
      ⟨0, t0, [], [⟨sec, a, t1⟩]⟩ (some 0) rfl rfl hwf1 sec a t2
    refine ⟨_, h1eq, ?_⟩
    by_cases heq : t1 = t2
    · subst heq
      have hins : insertEvent [(⟨sec, a, t1⟩ : BurnProof)] ⟨sec, a, t1⟩ =
          [(⟨sec, a, t1⟩ : BurnProof)] := by
        simp [insertEvent]
      rw [hins] at h2
      refine ⟨_, h2, ?_, ?_⟩
      · intro hne
        exact absurd rfl hne
      · intro _
        rfl
    · have hne2 : ¬ t2 = t1 := fun h => heq h.symm
      have hins : insertEvent [(⟨sec, a, t1⟩ : BurnProof)] ⟨sec, a, t2⟩ =
          [⟨sec, a, t1⟩, ⟨sec, a, t2⟩] := by
        simp [insertEvent, BurnProof.mk.injEq, hne2]
      rw [hins] at h2
      have hwf2 : WFEpoch (⟨0, t0, [], [⟨sec, a, t1⟩, ⟨sec, a, t2⟩]⟩ : EpochState) := by
        refine ⟨?_, ht0, ?_, ?_, ?_, ?_⟩
        · show (0 : Nat) < U64MOD
          unfold U64MOD
          omega
        · show (0 : Nat) < U64MOD
          unfold U64MOD
          omega
        · show (2 : Nat) < U64MOD
          unfold U64MOD
          omega
        · intro p hp; simp at hp
        · intro b hb
          rcases List.mem_cons.mp hb with hb | hb
          · subst hb; exact ⟨hsec, ha, ht1⟩
          · simp only [List.mem_singleton] at hb
            subst hb
            exact ⟨hsec, ha, ht2⟩
      refine ⟨_, h2, ?_, ?_⟩
      · intro _
        show (mkStorage [(⟨0, t0, [], [⟨sec, a, t1⟩, ⟨sec, a, t2⟩]⟩ : EpochState)]
            (some 0)).get_epoch 0 = _
        rw [get_epoch_mkStorage _ _ _ (by
          intro x hx
          simp only [List.mem_singleton] at hx
          subst hx
          exact hwf2)]
        simp [List.find?]
      · intro hcon
        exact absurd hcon heq
  · -- mint side
    have h1 := record_mint_single ((PolService.fresh maxH dur).init_service t0)
      ⟨0, t0, [], []⟩ (some 0) rfl rfl hwf0 pr a t1
    have h1eq : ((PolService.fresh maxH dur).init_service t0).record_mint_proof pr a t1 =
        .ok (PolService.mk (mkStorage [⟨0, t0, [⟨pr, a, t1⟩], []⟩] (some 0)) 0 dur maxH) := by
      rw [h1]
      rfl
    have hwf1 : WFEpoch (⟨0, t0, [⟨pr, a, t1⟩], []⟩ : EpochState) := by
      refine ⟨?_, ht0, ?_, ?_, ?_, ?_⟩
      · show (0 : Nat) < U64MOD
        unfold U64MOD
        omega
      · show (1 : Nat) < U64MOD
        unfold U64MOD
        omega
      · show (0 : Nat) < U64MOD
        unfold U64MOD
        omega
      · intro p hp
        simp only [List.mem_singleton] at hp
        subst hp
        exact ⟨hpr, ha, ht1⟩
      · intro b hb; simp at hb
    have h2 := record_mint_single
      (PolService.mk (mkStorage [⟨0, t0, [⟨pr, a, t1⟩], []⟩] (some 0)) 0 dur maxH)
      ⟨0, t0, [⟨pr, a, t1⟩], []⟩ (some 0) rfl rfl hwf1 pr a t2
    refine ⟨_, h1eq, ?_⟩
    by_cases heq : t1 = t2
    · subst heq
      have hins : insertEvent [(⟨pr, a, t1⟩ : MintProof)] ⟨pr, a, t1⟩ =
          [(⟨pr, a, t1⟩ : MintProof)] := by
        simp [insertEvent]
      rw [hins] at h2
      refine ⟨_, h2, ?_, ?_⟩
      · intro hne
        exact absurd rfl hne
      · intro _
        rfl
    · have hne2 : ¬ t2 = t1 := fun h => heq h.symm
      have hins : insertEvent [(⟨pr, a, t1⟩ : MintProof)] ⟨pr, a, t2⟩ =
          [⟨pr, a, t1⟩, ⟨pr, a, t2⟩] := by
        simp [insertEvent, MintProof.mk.injEq, hne2]
      rw [hins] at h2
      have hwf2 : WFEpoch (⟨0, t0, [⟨pr, a, t1⟩, ⟨pr, a, t2⟩], []⟩ : EpochState) := by
        refine ⟨?_, ht0, ?_, ?_, ?_, ?_⟩
        · show (0 : Nat) < U64MOD
          unfold U64MOD
          omega
        · show (2 : Nat) < U64MOD
          unfold U64MOD
          omega
        · show (0 : Nat) < U64MOD
          unfold U64MOD
          omega
        · intro p hp
          rcases List.mem_cons.mp hp with hp | hp
          · subst hp; exact ⟨hpr, ha, ht1⟩
          · simp only [List.mem_singleton] at hp
            subst hp
            exact ⟨hpr, ha, ht2⟩
        · intro b hb; simp at hb
      refine ⟨_, h2, ?_, ?_⟩
      · intro _
        show (mkStorage [(⟨0, t0, [⟨pr, a, t1⟩, ⟨pr, a, t2⟩], []⟩ : EpochState)]
            (some 0)).get_epoch 0 = _
        rw [get_epoch_mkStorage _ _ _ (by
          intro x hx
          simp only [List.mem_singleton] at hx
          subst hx
          exact hwf2)]
        simp [List.find?]
      · intro hcon
        exact absurd hcon heq

/-- C10 witness: same secret and amount at distinct timestamps 5 and 7 give two
events; the identical-case clause is vacuous there. -/
theorem record_dedup_full_value_witness :
    (∃ s1, ((PolService.fresh 4 100).init_service 0).record_burn_proof "s" 9 5 =
        .ok s1 ∧
      ∃ s2, s1.record_burn_proof "s" 9 7 = .ok s2 ∧
        ((5 : Int) ≠ 7 → s2.storage.get_epoch 0 =
          .ok (some ⟨0, 0, [], [⟨"s", 9, 5⟩, ⟨"s", 9, 7⟩]⟩)) ∧
        ((5 : Int) = 7 → s2 = s1)) ∧
    (∃ s3, ((PolService.fresh 4 100).init_service 0).record_mint_proof "p" 9 5 =
        .ok s3 ∧
      ∃ s4, s3.record_mint_proof "p" 9 7 = .ok s4 ∧
        ((5 : Int) ≠ 7 → s4.storage.get_epoch 0 =
          .ok (some ⟨0, 0, [⟨"p", 9, 5⟩, ⟨"p", 9, 7⟩], []⟩)) ∧
        ((5 : Int) = 7 → s4 = s3)) :=
  record_dedup_full_value 4 100 0 "s" "p" 9 5 7 (by decide) (by decide) (by decide)
    (by decide) (by decide) (by decide)
